import Mathlib

/-!
Verification development for the pypam frequency-band aggregation engine
(`pypam/utils.py`).

The embedding works over exact arithmetic:
* functions whose arithmetic is rational (histograms, cumulative sums,
  the PSD rebander `psd_ds_to_bands`) are embedded over `ℚ`;
* functions built from real powers `base ** x` (`get_center_freq`,
  `get_bands_limits`, `octdsgn`) are embedded over `ℝ` with `Real.rpow`;
  their `while` loops are modelled by fuel-indexed recursion returning
  `Option` (`none` means the Python loop has not terminated within the
  fuel bound, so nothing is returned).

Python conventions captured here:
* `np.histogram` uses half-open bins `[e_i, e_{i+1})` except the last
  bin, which is closed;
* `np.argmax` over a boolean vector returns the first `True` index and
  `0` when every entry is `False`;
* `xarray.groupby_bins(..., bins=L)` groups a coordinate value `x` into
  band `i` when `L_i < x ≤ L_{i+1}` (pandas `cut` with `right=True`);
* `DataArray.sel(frequency=q)` requires `q` to lie exactly on the
  coordinate axis, otherwise the call raises `KeyError`; this is the
  `Except.error` branch of `psdLimitAt`;
* Python `round` rounds half to even.
-/

namespace Pypam

/-! ## SPD estimator (`sxx2spd`) over `ℚ` -/

/-- Error message used where the code would raise `KeyError`. -/
def keyErrorMsg : String := "KeyError: frequency label not on the psd frequency axis"

/-- `np.cumsum`: list of partial sums (same length as the input). -/
def cumSum : List ℚ → List ℚ
  | [] => []
  | x :: xs => x :: (cumSum xs).map (fun y => x + y)

/-- `np.argmax` on a boolean vector: index of the first `true`, and `0`
when no entry is `true`. -/
def argmaxBool (l : List Bool) : ℕ :=
  if l.findIdx (fun b => b) = l.length then 0 else l.findIdx (fun b => b)

/-- Membership test of a value in histogram bin `i`: bins are half-open
`[e_i, e_{i+1})` except the last one, `[e_{n-2}, e_{n-1}]`, which is
closed (`np.histogram` semantics; `edges.length = n`). -/
def inBin (edges : List ℚ) (i : ℕ) (x : ℚ) : Bool :=
  decide (edges.getD i 0 ≤ x) &&
    (if i + 2 = edges.length then decide (x ≤ edges.getD (i + 1) 0)
     else decide (x < edges.getD (i + 1) 0))

/-- `np.histogram(row, edges)[0]`: counts per bin. -/
def histCounts (row edges : List ℚ) : List ℕ :=
  (List.range (edges.length - 1)).map (fun i => row.countP (inBin edges i))

/-- One row of the `spd` matrix of `sxx2spd`: the histogram counts divided by
`sxx.shape[0] * h` — the source divides by the number of ROWS of `sxx`
(line 36 of `utils.py`), not by the number of bins. -/
def spdRow (nRows : ℕ) (h : ℚ) (edges row : List ℚ) : List ℚ :=
  (histCounts row edges).map (fun c : ℕ => (c : ℚ) / ((nRows : ℚ) * h))

/-- One row of the percentile matrix `p` of `sxx2spd`:
`p[i, j] = bin_edges[np.argmax(cumsum > percentiles[j] * cumsum[-1])]`. -/
def pRow (percentiles edges srow : List ℚ) : List ℚ :=
  percentiles.map (fun pc =>
    edges.getD (argmaxBool ((cumSum srow).map
      (fun x => decide (pc * (cumSum srow).getLastD 0 < x)))) 0)

/-- Embedding of `sxx2spd` (`utils.py` lines 17-41).  `sxx` is the
spectrogram as a list of rows; the result is the pair `(spd, p)`.  The
source fills both matrices inside one loop over rows; each output row
depends only on the corresponding input row (and the row count used in
the normalisation), so the loop is rendered as two row maps. -/
def sxx2spd (sxx : List (List ℚ)) (h : ℚ) (percentiles : List ℚ)
    (binEdges : List ℚ) : List (List ℚ) × List (List ℚ) :=
  (sxx.map (fun row => spdRow sxx.length h binEdges row),
   sxx.map (fun row => pRow percentiles binEdges (spdRow sxx.length h binEdges row)))

/-- The normalisation the claim describes (counts divided by the number of
amplitude BINS times `h`); written from the claim's words, to be compared
with the source's `sxx2spd`. -/
def spdClaimNorm (sxx : List (List ℚ)) (h : ℚ) (binEdges : List ℚ) :
    List (List ℚ) :=
  sxx.map (fun row =>
    (histCounts row binEdges).map (fun c : ℕ => (c : ℚ) / (((binEdges.length - 1 : ℕ) : ℚ) * h)))

/-! ## PSD rebander (`psd_ds_to_bands`) over `ℚ`

The psd input is a list of values `s_0, …, s_{N-1}`; value `s_k` sits at
frequency `k * w` on the `frequency` axis (`scipy.fft.rfftfreq`), where
`w` is `fft_bin_width`. -/

/-- `fft_freq_lims` entry for one band limit `L`:
`np.floor(L / w) + w / 2` (`utils.py` line 407). -/
def fftFreqLim (w L : ℚ) : ℚ := (⌊L / w⌋ : ℚ) + w / 2

/-- `weights_diff` entry for one band limit: `(fft_freq_lims - L) / w`
(`utils.py` line 409). -/
def weightDiff (w L : ℚ) : ℚ := (fftFreqLim w L - L) / w

/-- `DataArray.sel(frequency=q)`: the index `k` with `k * w = q`, if the
label `q` lies on the axis `0, w, 2w, …, (N-1)w`. -/
def freqSel (N : ℕ) (w q : ℚ) : Option ℕ :=
  (List.range N).find? (fun k => decide ((k : ℚ) * w = q))

/-- `psd['band_spectrum'].sel(frequency=fft_freq_lims[j] + w/2)` for the
band limit `L` (`utils.py` line 411); raises `KeyError` when the label is
not on the frequency axis. -/
def psdLimitAt (psd : List ℚ) (w L : ℚ) : Except String ℚ :=
  match freqSel psd.length w (fftFreqLim w L + w / 2) with
  | some k => Except.ok (psd.getD k 0)
  | none => Except.error keyErrorMsg

/-- One entry of `psd_diff = psd_limits * weights_diff[:-1]`
(`utils.py` line 412). -/
def psdDiffAt (psd : List ℚ) (w L : ℚ) : Except String ℚ :=
  match psdLimitAt psd w L with
  | Except.ok v => Except.ok (v * weightDiff w L)
  | Except.error e => Except.error e

/-- The list `psd_diff` over the band limits (all limits but the last). -/
def psdDiffList (psd : List ℚ) (w : ℚ) : List ℚ → Except String (List ℚ)
  | [] => Except.ok []
  | L :: rest =>
    match psdDiffAt psd w L, psdDiffList psd w rest with
    | Except.ok v, Except.ok vs => Except.ok (v :: vs)
    | Except.error e, _ => Except.error e
    | _, Except.error e => Except.error e

/-- `groupby_bins('frequency', bins=L).sum()` for one band `(lo, hi]`:
the sum of the psd values whose frequency `k * w` satisfies
`lo < k * w ≤ hi`. -/
def groupSum (psd : List ℚ) (w lo hi : ℚ) : ℚ :=
  ∑ k ∈ Finset.range psd.length,
    if lo < (k : ℚ) * w ∧ (k : ℚ) * w ≤ hi then psd.getD k 0 else 0

/-- Message for the crash in the `method='density'` branch: the source
calls `psd.frequency.diff()` (line 417) and `DataArray.diff` requires its
`dim` argument, so the call raises `TypeError` before producing output. -/
def densityErrorMsg : String :=
  "TypeError: diff() missing 1 required positional argument: dim"

/-- Embedding of `psd_ds_to_bands` (`utils.py` lines 384-420) for a single
time row.  With `m` bands (`bandsLimits` has `m+1` entries):

* `grouped i` is the groupby-bins sum of band `i`;
* `psdDiff j` (for `j < m`, i.e. `weights_diff[:-1]`) is the correction
  term at band limit `j`;
* band `0` keeps its grouped sum and band `i ≥ 1` becomes
  `grouped i - (psdDiff i - psdDiff (i-1))`, which renders the assignment
  `psd_bands['band_spectrum'].loc[1:] = ... - psd_diff.diff('frequency')`
  (lines 413-414; for the geometries in question the label slice `1:`
  coincides with the positional slice dropping band `0`, because the
  first band centre is `0` and the second is `≥ 1`);
* `method='density'` then raises (line 417), see `densityErrorMsg`.

`bandsC` only labels the output axis and does not enter the arithmetic. -/
def psd_ds_to_bands (psd bandsLimits bandsC : List ℚ) (w : ℚ)
    (method : String) : Except String (List ℚ) :=
  let m := bandsLimits.length - 1
  match psdDiffList psd w bandsLimits.dropLast with
  | Except.error e => Except.error e
  | Except.ok psdDiff =>
    let grouped := (List.range m).map (fun i =>
      groupSum psd w (bandsLimits.getD i 0) (bandsLimits.getD (i + 1) 0))
    let out := (List.range m).map (fun i =>
      if i = 0 then grouped.getD 0 0
      else grouped.getD i 0 - (psdDiff.getD i 0 - psdDiff.getD (i - 1) 0))
    if method = "density" then Except.error densityErrorMsg
    else Except.ok out

/-! ## Band limit calculator (`get_bands_limits`) over `ℝ`

`while` loops are modelled by fuel recursion; `none` means the loop did
not exit within the fuel bound (the Python call has not returned).  Real
comparisons are decided classically. -/

open Classical in
/-- `G = 10.0 ** (3.0 / 10.0)` (`utils.py` line 13). -/
noncomputable def Gconst : ℝ := (10 : ℝ) ^ ((3 : ℝ) / 10)

open Classical in
/-- Embedding of `get_center_freq` (`utils.py` lines 344-351).  `n` is the
band counter (a Python `int`), `f0` the `firstOutBandcenterFreq`
argument.  When `bands_per_division` is even and not `10`, the second
branch ignores `f0` entirely. -/
noncomputable def get_center_freq (base : ℝ) (bpd : ℕ) (n : ℤ) (f0 : ℝ) : ℝ :=
  if bpd = 10 ∨ bpd % 2 = 1 then
    f0 * base ^ ((((n : ℝ) - 1)) / (bpd : ℝ))
  else
    base * Gconst ^ ((2 * ((n : ℝ) - 1) + 1) / (2 * ((3 : ℝ) / 10 * (bpd : ℝ))))

open Classical in
/-- Python `round` (round half to even), as used on
`center_freq / fft_bin_width` at `utils.py` line 309. -/
noncomputable def pyRound (x : ℝ) : ℤ :=
  if x - ⌊x⌋ < 1 / 2 then ⌊x⌋
  else if 1 / 2 < x - ⌊x⌋ then ⌊x⌋ + 1
  else if Even ⌊x⌋ then ⌊x⌋ else ⌊x⌋ + 1

open Classical in
/-- First hybrid loop (`utils.py` lines 300-304): grow the band counter
until the log band is at least one FFT bin wide.  State: band counter and
current `bin_width`; returns the final band counter. -/
noncomputable def widthLoop (base : ℝ) (bpd : ℕ) (f0 fbw low high : ℝ) :
    ℕ → ℤ → ℝ → Option ℤ
  | 0, _, _ => none
  | fuel + 1, bc, bw =>
    if bw < fbw then
      widthLoop base bpd f0 fbw low high fuel (bc + 1)
        (high * get_center_freq base bpd (bc + 1) f0 -
          low * get_center_freq base bpd (bc + 1) f0)
    else some bc

open Classical in
/-- Second hybrid loop (`utils.py` lines 310-319): local-minimum search
for the crossover.  State: band counter, linear bin counter, current
centre frequency, current `dc`; returns `(band_count - 1,
linear_bin_count - 1, center_freq)` — the source decrements the two
counters after the loop but keeps the (stale) last centre frequency. -/
noncomputable def refineLoop (base : ℝ) (bpd : ℕ) (f0 fbw : ℝ) :
    ℕ → ℤ → ℤ → ℝ → ℝ → Option (ℤ × ℤ × ℝ)
  | 0, _, _, _, _ => none
  | fuel + 1, bc, lbc, c, dc =>
    if |(lbc : ℝ) * fbw - c| < dc then
      refineLoop base bpd f0 fbw fuel (bc + 1) (lbc + 1)
        (get_center_freq base bpd (bc + 1) f0) |(lbc : ℝ) * fbw - c|
    else some (bc - 1, lbc - 1, c)

open Classical in
/-- Log-spaced loop (`utils.py` lines 331-337) plus the final
`bands_limits.append(ls_freq)` (line 339): returns the appended limits,
the appended centres, and the final `ls_freq` (which is `≥ band[1]` on
exit and becomes the last band limit). -/
noncomputable def logLoop (base : ℝ) (bpd : ℕ) (f0 b2 low high : ℝ) :
    ℕ → ℤ → ℝ → Option (List ℝ × List ℝ × ℝ)
  | 0, _, _ => none
  | fuel + 1, bc, ls =>
    if ls < b2 then
      match logLoop base bpd f0 b2 low high fuel (bc + 1)
          (get_center_freq base bpd bc f0 * high) with
      | none => none
      | some (lims, cs, lsf) =>
        some (get_center_freq base bpd bc f0 * low :: lims,
          get_center_freq base bpd bc f0 :: cs, lsf)
    else some ([], [], ls)

/-- Centres of the linear portion (`utils.py` lines 324-327):
`first_bin_centre + i * fft_bin_width`. -/
noncomputable def linCenters (n : ℕ) (fbc fbw : ℝ) : List ℝ :=
  (List.range n).map (fun i : ℕ => fbc + (i : ℝ) * fbw)

/-- Limits of the linear portion (`utils.py` line 328):
`fc - fft_bin_width / 2`. -/
noncomputable def linLims (n : ℕ) (fbc fbw : ℝ) : List ℝ :=
  (List.range n).map (fun i : ℕ => fbc + (i : ℝ) * fbw - fbw / 2)

open Classical in
/-- Hybrid-mode preamble of `get_bands_limits` (`utils.py` lines
299-323): runs the two crossover loops and computes the number of linear
bins.  Returns `(band_count, center_freq, linear bin count)`; the linear
bin count renders `np.arange(linear_bin_count)` — when the clamp at line
321 fires, `linear_bin_count` becomes the float `band[1] / fft_bin_width
+ 1` and `np.arange` yields `⌈x⌉` values (`0` when `x ≤ 0`). -/
noncomputable def hybridInit (base : ℝ) (bpd : ℕ) (f0 b2 fbw low high : ℝ)
    (fuel : ℕ) : Option (ℤ × ℝ × ℕ) :=
  match widthLoop base bpd f0 fbw low high fuel 0 0 with
  | none => none
  | some bc =>
    let c1 := get_center_freq base bpd bc f0
    let lbc0 := pyRound (c1 / fbw)
    match refineLoop base bpd f0 fbw fuel bc lbc0 c1
        (|(lbc0 : ℝ) * fbw - c1| + 1 / 10) with
    | none => none
    | some (bc2, lbc2, c2) =>
      let linCount : ℕ :=
        if fbw * (lbc2 : ℝ) > b2 then (⌈b2 / fbw + 1⌉ : ℤ).toNat else lbc2.toNat
      some (bc2, c2, linCount)

/-- `low_side_multiplier = base ** (-1 / (2 * bands_per_division))`
(`utils.py` line 287). -/
noncomputable def lowMult (base : ℝ) (bpd : ℕ) : ℝ :=
  base ^ ((-1 : ℝ) / (2 * (bpd : ℝ)))

/-- `high_side_multiplier = base ** (1 / (2 * bands_per_division))`
(`utils.py` line 288). -/
noncomputable def highMult (base : ℝ) (bpd : ℕ) : ℝ :=
  base ^ ((1 : ℝ) / (2 * (bpd : ℝ)))

/-- `fft_bin_width = band[1] * 2 / nfft` (`utils.py` line 290). -/
noncomputable def binWidth (band : ℝ × ℝ) (nfft : ℕ) : ℝ :=
  band.2 * 2 / (nfft : ℝ)

open Classical in
/-- Embedding of `get_bands_limits` (`utils.py` lines 271-341).
`band = (band[0], band[1])`, `fbc` is `first_bin_centre` (default `0`).
In non-hybrid mode the preamble is skipped and the log loop starts from
`band_count = 0`, `center_freq = 0` (line 297-298), so the entry
`ls_freq` is `0 * high_side_multiplier`.  The final limits list is the
linear limits, then the log-loop limits, then the exit `ls_freq`. -/
noncomputable def get_bands_limits (fuel : ℕ) (band : ℝ × ℝ) (nfft : ℕ)
    (base : ℝ) (bpd : ℕ) (hybridMode : Bool) (fbc : ℝ) :
    Option (List ℝ × List ℝ) :=
  let low := lowMult base bpd
  let high := highMult base bpd
  let fbw := binWidth band nfft
  match (if hybridMode then hybridInit base bpd band.1 band.2 fbw low high fuel
         else some (0, 0, 0)) with
  | none => none
  | some (bc, c, linCount) =>
    match logLoop base bpd band.1 band.2 low high fuel bc (c * high) with
    | none => none
    | some (logLims, logCs, lsf) =>
      some (linLims linCount fbc fbw ++ logLims ++ [lsf],
        linCenters linCount fbc fbw ++ logCs)

/-- Embedding of `get_hybrid_millidecade_limits` (`utils.py` lines
354-366): `base=10`, `bands_per_division=1000`, `hybrid_mode=True`. -/
noncomputable def get_hybrid_millidecade_limits (fuel : ℕ) (band : ℝ × ℝ)
    (nfft : ℕ) : Option (List ℝ × List ℝ) :=
  get_bands_limits fuel band nfft 10 1000 true 0

/-- Embedding of `get_decidecade_limits` (`utils.py` lines 369-381):
`base=10`, `bands_per_division=10`, `hybrid_mode=False`. -/
noncomputable def get_decidecade_limits (fuel : ℕ) (band : ℝ × ℝ)
    (nfft : ℕ) : Option (List ℝ × List ℝ) :=
  get_bands_limits fuel band nfft 10 10 false 0

/-! ## Octave filter designer (`octdsgn`) over `ℝ` -/

open Classical in
/-- Embedding of `octdsgn` (`utils.py` lines 189-218).  The guard at line
206 raises when `fc > 0.88 * fs / 2`; otherwise the function derives the
normalised band edges `w1 < w2` and hands them to
`scipy.signal.butter(n, [w1, w2], btype='bandpass', output='sos')`.
`scipy` is an external collaborator; the success value is the argument
triple `(n, w1, w2)` the source passes to it. -/
noncomputable def octdsgn (fc fs : ℝ) (fraction : ℕ) (n : ℕ) :
    Except String (ℕ × ℝ × ℝ) :=
  if fc > 0.88 * fs / 2 then
    Except.error "Design not possible - check frequencies"
  else
    let f1 := fc * Gconst ^ ((-1 : ℝ) / (2 * (fraction : ℝ)))
    let f2 := fc * Gconst ^ ((1 : ℝ) / (2 * (fraction : ℝ)))
    let qr := fc / (f2 - f1)
    let qd := Real.pi / 2 / (n : ℝ) / Real.sin (Real.pi / 2 / (n : ℝ)) * qr
    let alpha := (1 + Real.sqrt (1 + 4 * qd ^ 2)) / 2 / qd
    Except.ok (n, fc / (fs / 2) / alpha, fc / (fs / 2) * alpha)


/-! ## Evaluation helpers and concrete simulations -/

lemma rpow_as_zpow (b x : ℝ) (k : ℤ) (h : x = (k : ℝ)) : b ^ x = b ^ k := by
  rw [h, Real.rpow_intCast]

lemma hundred_rpow_half : (100 : ℝ) ^ ((1 : ℝ) / 2) = 10 := by
  have h100 : (100 : ℝ) = (10 : ℝ) ^ (2 : ℝ) := by
    rw [rpow_as_zpow 10 2 2 (by norm_num)]; norm_num
  rw [h100, ← Real.rpow_mul (by norm_num : (0:ℝ) ≤ 10)]
  norm_num

lemma hundred_rpow_neg_half : (100 : ℝ) ^ (-((1 : ℝ) / 2)) = 1 / 10 := by
  rw [Real.rpow_neg (by norm_num : (0:ℝ) ≤ 100), hundred_rpow_half]
  norm_num

lemma widthLoop_succ (base : ℝ) (bpd : ℕ) (f0 fbw low high : ℝ) (fuel : ℕ) (bc : ℤ) (bw : ℝ) :
    widthLoop base bpd f0 fbw low high (fuel + 1) bc bw =
      if bw < fbw then
        widthLoop base bpd f0 fbw low high fuel (bc + 1)
          (high * get_center_freq base bpd (bc + 1) f0 -
            low * get_center_freq base bpd (bc + 1) f0)
      else some bc := rfl

lemma refineLoop_succ (base : ℝ) (bpd : ℕ) (f0 fbw : ℝ) (fuel : ℕ) (bc lbc : ℤ) (c dc : ℝ) :
    refineLoop base bpd f0 fbw (fuel + 1) bc lbc c dc =
      if |(lbc : ℝ) * fbw - c| < dc then
        refineLoop base bpd f0 fbw fuel (bc + 1) (lbc + 1)
          (get_center_freq base bpd (bc + 1) f0) |(lbc : ℝ) * fbw - c|
      else some (bc - 1, lbc - 1, c) := rfl

lemma logLoop_succ (base : ℝ) (bpd : ℕ) (f0 b2 low high : ℝ) (fuel : ℕ) (bc : ℤ) (ls : ℝ) :
    logLoop base bpd f0 b2 low high (fuel + 1) bc ls =
      if ls < b2 then
        match logLoop base bpd f0 b2 low high fuel (bc + 1)
            (get_center_freq base bpd bc f0 * high) with
        | none => none
        | some (lims, cs, lsf) =>
          some (get_center_freq base bpd bc f0 * low :: lims,
            get_center_freq base bpd bc f0 :: cs, lsf)
      else some ([], [], ls) := rfl

lemma gcf_P1_0 : get_center_freq 100 1 0 2 = 1 / 50 := by
  rw [get_center_freq, if_pos (by norm_num)]
  rw [rpow_as_zpow 100 _ (-1) (by norm_num)]; norm_num

lemma gcf_P1_1 : get_center_freq 100 1 1 2 = 2 := by
  rw [get_center_freq, if_pos (by norm_num)]
  rw [rpow_as_zpow 100 _ 0 (by norm_num)]; norm_num

lemma gcf_P1_2 : get_center_freq 100 1 2 2 = 200 := by
  rw [get_center_freq, if_pos (by norm_num)]
  rw [rpow_as_zpow 100 _ 1 (by norm_num)]; norm_num

lemma gcf_P1_3 : get_center_freq 100 1 3 2 = 20000 := by
  rw [get_center_freq, if_pos (by norm_num)]
  rw [rpow_as_zpow 100 _ 2 (by norm_num)]; norm_num

lemma width_sim_P1 (fuel : ℕ) : widthLoop 100 1 2 1 (1/10) 10 (fuel + 2) 0 0 = some 1 := by
  rw [show fuel + 2 = (fuel + 1) + 1 from rfl, widthLoop_succ, if_pos (by norm_num)]
  norm_num [gcf_P1_1]
  rw [widthLoop_succ, if_neg (by norm_num)]

lemma refine_sim_P1 (fuel : ℕ) : refineLoop 100 1 2 1 (fuel + 2) 1 2 2 (1/10) = some (1, 2, 200) := by
  rw [show fuel + 2 = (fuel + 1) + 1 from rfl, refineLoop_succ, if_pos (by norm_num)]
  norm_num [gcf_P1_2]
  rw [refineLoop_succ, if_neg (by norm_num)]
  norm_num

lemma pyRound_two : pyRound 2 = 2 := by
  rw [pyRound, if_pos]
  · norm_num
  · norm_num

lemma log_sim_P1_a (fuel : ℕ) :
    logLoop 100 1 2 4000 (1/10) 10 (fuel + 1) 4 200000 = some ([], [], 200000) := by
  rw [logLoop_succ, if_neg (by norm_num)]

lemma log_sim_P1_b (fuel : ℕ) :
    logLoop 100 1 2 4000 (1/10) 10 (fuel + 2) 3 2000 = some ([2000], [20000], 200000) := by
  rw [show fuel + 2 = (fuel + 1) + 1 from rfl, logLoop_succ, if_pos (by norm_num)]
  norm_num [gcf_P1_3]
  rw [log_sim_P1_a fuel]

lemma log_sim_P1_c (fuel : ℕ) :
    logLoop 100 1 2 4000 (1/10) 10 (fuel + 3) 2 20 = some ([20, 2000], [200, 20000], 200000) := by
  rw [show fuel + 3 = (fuel + 2) + 1 from rfl, logLoop_succ, if_pos (by norm_num)]
  norm_num [gcf_P1_2]
  rw [log_sim_P1_b fuel]

lemma log_sim_P1_d (fuel : ℕ) :
    logLoop 100 1 2 4000 (1/10) 10 (fuel + 4) 1 2000
      = some ([1/5, 20, 2000], [2, 200, 20000], 200000) := by
  rw [show fuel + 4 = (fuel + 3) + 1 from rfl, logLoop_succ, if_pos (by norm_num)]
  norm_num [gcf_P1_1]
  rw [log_sim_P1_c fuel]

lemma hybridInit_sim_P1 (fuel : ℕ) :
    hybridInit 100 1 2 4000 1 (1/10) 10 (fuel + 4) = some (1, 200, 2) := by
  rw [hybridInit, show fuel + 4 = (fuel + 2) + 2 from rfl, width_sim_P1 (fuel + 2)]
  norm_num [gcf_P1_1, pyRound_two]
  rw [refine_sim_P1 (fuel + 2)]
  norm_num
  rfl

lemma linLims_two : linLims 2 0 1 = [-(1/2 : ℝ), 1/2] := by
  simp [linLims, show List.range 2 = [0, 1] from rfl]
  norm_num

lemma linCenters_two : linCenters 2 0 1 = [0, (1 : ℝ)] := by
  simp [linCenters, show List.range 2 = [0, 1] from rfl]

lemma trace1_sim (fuel : ℕ) :
    get_bands_limits (fuel + 4) (2, 4000) 8000 100 1 true 0
      = some ([-(1/2 : ℝ), 1/2, 1/5, 20, 2000, 200000], [0, 1, 2, 200, 20000]) := by
  simp only [get_bands_limits, lowMult, highMult, binWidth, if_pos]
  norm_num [hundred_rpow_neg_half, hundred_rpow_half]
  rw [hybridInit_sim_P1 fuel]
  norm_num
  rw [log_sim_P1_d fuel]
  norm_num [linLims_two, linCenters_two]

lemma logLoop_exit (base : ℝ) (bpd : ℕ) (f0 b2 low high : ℝ) (fuel : ℕ) (bc : ℤ) (ls : ℝ)
    (h : b2 ≤ ls) : logLoop base bpd f0 b2 low high (fuel + 1) bc ls = some ([], [], ls) := by
  rw [logLoop_succ, if_neg (not_lt.mpr h)]

lemma trace2_sim (fuel : ℕ) :
    get_bands_limits (fuel + 4) (2, 1000) 2000 100 1 true 0
      = some ([-(1/2 : ℝ), 1/2, 2000], [0, 1]) := by
  simp only [get_bands_limits, lowMult, highMult, binWidth, if_pos]
  norm_num [hundred_rpow_neg_half, hundred_rpow_half]
  rw [hybridInit, show fuel + 4 = (fuel + 2) + 2 from rfl, width_sim_P1 (fuel + 2)]
  norm_num [gcf_P1_1, pyRound_two]
  rw [refine_sim_P1 (fuel + 2)]
  norm_num
  rw [show (fuel + 2) + 2 = (fuel + 3) + 1 from rfl,
    logLoop_exit 100 1 2 1000 (1/10) 10 (fuel + 3) 1 2000 (by norm_num)]
  norm_num [show Int.toNat 2 = 2 from rfl, linLims_two, linCenters_two]

lemma gcf_P3_0 : get_center_freq 100 1 0 100 = 1 := by
  rw [get_center_freq, if_pos (by norm_num)]
  rw [rpow_as_zpow 100 _ (-1) (by norm_num)]; norm_num

lemma gcf_P3_1 : get_center_freq 100 1 1 100 = 100 := by
  rw [get_center_freq, if_pos (by norm_num)]
  rw [rpow_as_zpow 100 _ 0 (by norm_num)]; norm_num

lemma log_sim_P3_a (fuel : ℕ) :
    logLoop 100 1 100 50 (1/10) 10 (fuel + 2) 1 10 = some ([10], [100], 1000) := by
  rw [show fuel + 2 = (fuel + 1) + 1 from rfl, logLoop_succ, if_pos (by norm_num)]
  norm_num [gcf_P3_1]
  rw [logLoop_exit 100 1 100 50 (1/10) 10 fuel 2 1000 (by norm_num)]

lemma log_sim_P3_b (fuel : ℕ) :
    logLoop 100 1 100 50 (1/10) 10 (fuel + 3) 0 0 = some ([1/10, 10], [1, 100], 1000) := by
  rw [show fuel + 3 = (fuel + 2) + 1 from rfl, logLoop_succ, if_pos (by norm_num)]
  norm_num [gcf_P3_0]
  rw [log_sim_P3_a fuel]

lemma trace3_sim (fuel : ℕ) :
    get_bands_limits (fuel + 3) (100, 50) 10 100 1 false 0
      = some ([1/10, 10, (1000 : ℝ)], [1, 100]) := by
  simp only [get_bands_limits, lowMult, highMult, binWidth]
  norm_num [hundred_rpow_neg_half, hundred_rpow_half]
  rw [log_sim_P3_b fuel]
  simp [linLims, linCenters]


/-! ## General lemmas about the log-spaced loop -/

/-- Ratio between consecutive centre frequencies: `base^(1/bpd)` in the
`bpd = 10`-or-odd branch and `10^(1/bpd)` in the even branch. -/
noncomputable def centerRatio (base : ℝ) (bpd : ℕ) : ℝ :=
  if bpd = 10 ∨ bpd % 2 = 1 then base ^ ((1 : ℝ) / (bpd : ℝ))
  else (10 : ℝ) ^ ((1 : ℝ) / (bpd : ℝ))

lemma Gconst_eq_rpow (z : ℝ) : Gconst ^ z = (10 : ℝ) ^ ((3 : ℝ) / 10 * z) := by
  rw [Gconst, ← Real.rpow_mul (by norm_num : (0:ℝ) ≤ 10)]

lemma gcf_succ (base : ℝ) (bpd : ℕ) (n : ℤ) (f0 : ℝ) (hbase : 0 < base) (hbpd : 1 ≤ bpd) :
    get_center_freq base bpd (n + 1) f0 =
      get_center_freq base bpd n f0 * centerRatio base bpd := by
  have hb : ((bpd : ℝ)) ≠ 0 := by
    have : (0 : ℝ) < (bpd : ℝ) := by exact_mod_cast Nat.lt_of_lt_of_le Nat.zero_lt_one hbpd
    linarith
  rw [get_center_freq, get_center_freq, centerRatio]
  by_cases hcase : bpd = 10 ∨ bpd % 2 = 1
  · rw [if_pos hcase, if_pos hcase, if_pos hcase]
    have hexp : ((((n : ℤ) + 1 : ℤ) : ℝ) - 1) / (bpd : ℝ)
        = ((n : ℝ) - 1) / (bpd : ℝ) + (1 : ℝ) / (bpd : ℝ) := by
      push_cast
      field_simp
    rw [hexp, Real.rpow_add hbase]
    ring
  · rw [if_neg hcase, if_neg hcase, if_neg hcase]
    rw [Gconst_eq_rpow, Gconst_eq_rpow]
    have hexp : (3 : ℝ) / 10 * ((2 * ((((n : ℤ) + 1 : ℤ) : ℝ) - 1) + 1) / (2 * ((3 : ℝ) / 10 * (bpd : ℝ))))
        = (3 : ℝ) / 10 * ((2 * ((n : ℝ) - 1) + 1) / (2 * ((3 : ℝ) / 10 * (bpd : ℝ)))) + (1 : ℝ) / (bpd : ℝ) := by
      push_cast
      field_simp
      ring
    rw [hexp, Real.rpow_add (by norm_num : (0:ℝ) < 10)]
    ring

lemma gcf_pos (base : ℝ) (bpd : ℕ) (n : ℤ) (f0 : ℝ) (hbase : 1 < base) (hf0 : 0 < f0) :
    0 < get_center_freq base bpd n f0 := by
  rw [get_center_freq]
  by_cases hcase : bpd = 10 ∨ bpd % 2 = 1
  · rw [if_pos hcase]
    exact mul_pos hf0 (Real.rpow_pos_of_pos (by linarith) _)
  · rw [if_neg hcase]
    exact mul_pos (by linarith) (Real.rpow_pos_of_pos (by rw [Gconst]; positivity) _)

lemma centerRatio_gt_one (base : ℝ) (bpd : ℕ) (hbase : 1 < base) (hbpd : 1 ≤ bpd) :
    1 < centerRatio base bpd := by
  have hb : (0 : ℝ) < (bpd : ℝ) := by exact_mod_cast Nat.lt_of_lt_of_le Nat.zero_lt_one hbpd
  rw [centerRatio]
  by_cases hcase : bpd = 10 ∨ bpd % 2 = 1
  · rw [if_pos hcase]
    exact Real.one_lt_rpow_iff_of_pos (by linarith) |>.mpr (Or.inl ⟨hbase, by positivity⟩)
  · rw [if_neg hcase]
    exact Real.one_lt_rpow_iff_of_pos (by norm_num) |>.mpr (Or.inl ⟨by norm_num, by positivity⟩)

lemma gcf_lt_succ (base : ℝ) (bpd : ℕ) (n : ℤ) (f0 : ℝ)
    (hbase : 1 < base) (hbpd : 1 ≤ bpd) (hf0 : 0 < f0) :
    get_center_freq base bpd n f0 < get_center_freq base bpd (n + 1) f0 := by
  rw [gcf_succ base bpd n f0 (by linarith) hbpd]
  have h1 := gcf_pos base bpd n f0 hbase hf0
  have h2 := centerRatio_gt_one base bpd hbase hbpd
  nlinarith

lemma logLoop_spec (base : ℝ) (bpd : ℕ) (f0 b2 low high : ℝ) :
    ∀ (fuel : ℕ) (bc : ℤ) (ls : ℝ) (l cs : List ℝ) (lsf : ℝ),
      logLoop base bpd f0 b2 low high fuel bc ls = some (l, cs, lsf) →
        cs = (List.range cs.length).map (fun j : ℕ => get_center_freq base bpd (bc + (j : ℤ)) f0)
        ∧ l = cs.map (fun c => c * low)
        ∧ b2 ≤ lsf
        ∧ (cs = [] → lsf = ls)
        ∧ (cs ≠ [] → lsf = get_center_freq base bpd (bc + ((cs.length : ℤ) - 1)) f0 * high) := by
  intro fuel
  induction fuel with
  | zero =>
    intro bc ls l cs lsf h
    simp [logLoop] at h
  | succ n ih =>
    intro bc ls l cs lsf h
    rw [logLoop_succ] at h
    by_cases hc : ls < b2
    · rw [if_pos hc] at h
      cases hin : logLoop base bpd f0 b2 low high n (bc + 1)
          (get_center_freq base bpd bc f0 * high) with
      | none => rw [hin] at h; simp at h
      | some t =>
        obtain ⟨l', cs', lsf'⟩ := t
        rw [hin] at h
        simp only [Option.some.injEq, Prod.mk.injEq] at h
        obtain ⟨hl, hcs, hlsf⟩ := h
        obtain ⟨ihshape, ihmap, ihlast, ihnil, ihlsf⟩ := ih (bc + 1) _ l' cs' lsf' hin
        subst hl hcs hlsf
        refine ⟨?_, ?_, ihlast, ?_, ?_⟩
        · conv_lhs => rw [ihshape]
          rw [List.length_cons, List.range_succ_eq_map, List.map_cons, List.map_map]
          refine congrArg₂ _ (by norm_num) ?_
          refine List.map_congr_left ?_
          intro j hj
          simp only [Function.comp]
          congr 1
          push_cast
          ring
        · rw [List.map_cons]
          exact congrArg _ ihmap
        · intro hfalse
          simp at hfalse
        · intro _
          by_cases hcs' : cs' = []
          · subst hcs'
            rw [ihnil rfl]
            simp
          · rw [ihlsf hcs']
            congr 2
            have hlen : 1 ≤ cs'.length := List.length_pos.mpr hcs'
            rw [List.length_cons]
            push_cast [Nat.cast_sub hlen]
            ring
    · rw [if_neg hc] at h
      simp only [Option.some.injEq, Prod.mk.injEq] at h
      obtain ⟨hl, hcs, hlsf⟩ := h
      subst hl hcs hlsf
      refine ⟨by simp, by simp, le_of_not_lt hc, fun _ => rfl, fun hfalse => absurd rfl hfalse⟩


/-- Any successful `get_bands_limits` run decomposes into the preamble
result and the log-loop result. -/
lemma get_bands_limits_decomp (fuel : ℕ) (band : ℝ × ℝ) (nfft : ℕ)
    (base : ℝ) (bpd : ℕ) (hyb : Bool) (fbc : ℝ) (L C : List ℝ)
    (h : get_bands_limits fuel band nfft base bpd hyb fbc = some (L, C)) :
    ∃ (bc : ℤ) (c : ℝ) (linCount : ℕ) (logLims logCs : List ℝ) (lsf : ℝ),
      (if hyb then hybridInit base bpd band.1 band.2 (binWidth band nfft)
          (lowMult base bpd) (highMult base bpd) fuel
       else some (0, 0, 0)) = some (bc, c, linCount)
      ∧ logLoop base bpd band.1 band.2 (lowMult base bpd) (highMult base bpd)
          fuel bc (c * highMult base bpd) = some (logLims, logCs, lsf)
      ∧ L = linLims linCount fbc (binWidth band nfft) ++ logLims ++ [lsf]
      ∧ C = linCenters linCount fbc (binWidth band nfft) ++ logCs := by
  rw [get_bands_limits] at h
  cases hinit : (if hyb then hybridInit base bpd band.1 band.2 (binWidth band nfft)
      (lowMult base bpd) (highMult base bpd) fuel else some (0, 0, 0)) with
  | none => rw [hinit] at h; simp at h
  | some t =>
    obtain ⟨bc, c, linCount⟩ := t
    rw [hinit] at h
    dsimp only at h
    cases hlog : logLoop base bpd band.1 band.2 (lowMult base bpd) (highMult base bpd)
        fuel bc (c * highMult base bpd) with
    | none => rw [hlog] at h; simp at h
    | some u =>
      obtain ⟨logLims, logCs, lsf⟩ := u
      rw [hlog] at h
      simp only [Option.some.injEq, Prod.mk.injEq] at h
      exact ⟨bc, c, linCount, logLims, logCs, lsf, rfl, hlog, h.1.symm, h.2.symm⟩

/-- The edges list of any returned geometry has one more entry than the
centres list. -/
lemma get_bands_limits_lengths (fuel : ℕ) (band : ℝ × ℝ) (nfft : ℕ)
    (base : ℝ) (bpd : ℕ) (hyb : Bool) (fbc : ℝ) (L C : List ℝ)
    (h : get_bands_limits fuel band nfft base bpd hyb fbc = some (L, C)) :
    L.length = C.length + 1 := by
  obtain ⟨bc, c, linCount, logLims, logCs, lsf, -, hlog, hL, hC⟩ :=
    get_bands_limits_decomp fuel band nfft base bpd hyb fbc L C h
  obtain ⟨-, hmap, -, -, -⟩ := logLoop_spec base bpd band.1 band.2
    (lowMult base bpd) (highMult base bpd) fuel bc _ _ _ _ hlog
  subst hL hC
  simp [linLims, linCenters, hmap]
  omega

/-- The last edge of any returned geometry is at least `band[1]`. -/
lemma get_bands_limits_last_ge (fuel : ℕ) (band : ℝ × ℝ) (nfft : ℕ)
    (base : ℝ) (bpd : ℕ) (hyb : Bool) (fbc : ℝ) (L C : List ℝ)
    (h : get_bands_limits fuel band nfft base bpd hyb fbc = some (L, C)) :
    L ≠ [] ∧ band.2 ≤ L.getLastD 0 := by
  obtain ⟨bc, c, linCount, logLims, logCs, lsf, -, hlog, hL, -⟩ :=
    get_bands_limits_decomp fuel band nfft base bpd hyb fbc L C h
  obtain ⟨-, -, hge, -, -⟩ := logLoop_spec base bpd band.1 band.2
    (lowMult base bpd) (highMult base bpd) fuel bc _ _ _ _ hlog
  subst hL
  constructor
  · simp
  · rw [show linLims linCount fbc (binWidth band nfft) ++ logLims ++ [lsf]
        = (linLims linCount fbc (binWidth band nfft) ++ logLims) ++ [lsf] by simp,
      List.getLastD_concat]
    exact hge

lemma logLoop_chain (base : ℝ) (bpd : ℕ) (f0 b2 low high : ℝ)
    (hbase : 1 < base) (hbpd : 1 ≤ bpd) (hf0 : 0 < f0)
    (hlow : 0 < low) (hlh : low < high) :
    ∀ (fuel : ℕ) (bc : ℤ) (ls : ℝ) (l cs : List ℝ) (lsf : ℝ),
      logLoop base bpd f0 b2 low high fuel bc ls = some (l, cs, lsf) →
        List.Chain' (· < ·) (l ++ [lsf]) := by
  intro fuel
  induction fuel with
  | zero =>
    intro bc ls l cs lsf h
    simp [logLoop] at h
  | succ n ih =>
    intro bc ls l cs lsf h
    rw [logLoop_succ] at h
    by_cases hc : ls < b2
    · rw [if_pos hc] at h
      cases hin : logLoop base bpd f0 b2 low high n (bc + 1)
          (get_center_freq base bpd bc f0 * high) with
      | none => rw [hin] at h; simp at h
      | some t =>
        obtain ⟨l', cs', lsf'⟩ := t
        rw [hin] at h
        simp only [Option.some.injEq, Prod.mk.injEq] at h
        obtain ⟨hl, hcs, hlsf⟩ := h
        subst hl hcs hlsf
        obtain ⟨ihshape, ihmap, -, ihnil, -⟩ := logLoop_spec base bpd f0 b2 low high
          n (bc + 1) _ _ _ _ hin
        have hchain := ih (bc + 1) _ l' cs' lsf' hin
        rw [List.cons_append]
        rw [List.chain'_cons']
        refine ⟨?_, hchain⟩
        intro y hy
        cases l' with
        | nil =>
          have hcs' : cs' = [] := by
            cases cs' with
            | nil => rfl
            | cons c0 ct => simp at ihmap
          rw [ihnil hcs'] at hy
          simp at hy
          subst hy
          have := gcf_pos base bpd bc f0 hbase hf0
          nlinarith
        | cons a t =>
          simp at hy
          subst hy
          have hcs' : cs' ≠ [] := by
            intro hfalse
            rw [hfalse] at ihmap
            simp at ihmap
          rcases cs' with _ | ⟨c0, ct⟩
          · exact absurd rfl hcs'
          · simp only [List.map_cons, List.cons.injEq] at ihmap
            obtain ⟨ha, -⟩ := ihmap
            have hc0 : c0 = get_center_freq base bpd (bc + 1) f0 := by
              have := ihshape
              simp only [List.length_cons, List.range_succ_eq_map, List.map_cons,
                List.cons.injEq] at this
              have h0 := this.1
              norm_num at h0
              exact h0
            rw [ha, hc0]
            have hmono := gcf_lt_succ base bpd bc f0 hbase hbpd hf0
            exact mul_lt_mul_of_pos_right hmono hlow
    · rw [if_neg hc] at h
      simp only [Option.some.injEq, Prod.mk.injEq] at h
      obtain ⟨hl, hcs, hlsf⟩ := h
      subst hl hcs hlsf
      simp

lemma lowMult_pos (base : ℝ) (bpd : ℕ) (hbase : 1 < base) :
    0 < lowMult base bpd :=
  Real.rpow_pos_of_pos (by linarith) _

lemma lowMult_lt_highMult (base : ℝ) (bpd : ℕ) (hbase : 1 < base) (hbpd : 1 ≤ bpd) :
    lowMult base bpd < highMult base bpd := by
  have hb : (0 : ℝ) < (bpd : ℝ) := by exact_mod_cast Nat.lt_of_lt_of_le Nat.zero_lt_one hbpd
  rw [lowMult, highMult]
  apply Real.rpow_lt_rpow_of_exponent_lt hbase
  rw [div_lt_div_iff₀ (by positivity) (by positivity)]
  nlinarith

/-- In non-hybrid mode, with `base > 1`, `bands_per_division ≥ 1` and
`band[0] > 0`, every returned edge list is strictly increasing. -/
lemma get_bands_limits_chain_nonhybrid (fuel : ℕ) (band : ℝ × ℝ) (nfft : ℕ)
    (base : ℝ) (bpd : ℕ) (fbc : ℝ) (L C : List ℝ)
    (hbase : 1 < base) (hbpd : 1 ≤ bpd) (hf0 : 0 < band.1)
    (h : get_bands_limits fuel band nfft base bpd false fbc = some (L, C)) :
    List.Chain' (· < ·) L := by
  obtain ⟨bc, c, linCount, logLims, logCs, lsf, hinit, hlog, hL, -⟩ :=
    get_bands_limits_decomp fuel band nfft base bpd false fbc L C h
  simp only [if_neg (by simp : ¬ (false = true)), Option.some.injEq, Prod.mk.injEq] at hinit
  obtain ⟨-, -, hlin⟩ := hinit
  subst hL
  rw [← hlin]
  simp only [linLims, List.range_zero, List.map_nil, List.nil_append]
  exact logLoop_chain base bpd band.1 band.2 (lowMult base bpd) (highMult base bpd)
    hbase hbpd hf0 (lowMult_pos base bpd hbase) (lowMult_lt_highMult base bpd hbase hbpd)
    fuel bc _ logLims logCs lsf hlog


/-! ## Independence from the lower band bound (even divisions) -/

lemma gcf_f0_indep (base : ℝ) (bpd : ℕ) (n : ℤ) (f0 f0' : ℝ)
    (heven : bpd % 2 = 0) (h10 : bpd ≠ 10) :
    get_center_freq base bpd n f0 = get_center_freq base bpd n f0' := by
  have hcond : ¬ (bpd = 10 ∨ bpd % 2 = 1) := by
    rintro (h | h)
    · exact h10 h
    · omega
  rw [get_center_freq, get_center_freq, if_neg hcond, if_neg hcond]

lemma widthLoop_f0_indep (base : ℝ) (bpd : ℕ) (f0 f0' fbw low high : ℝ)
    (heven : bpd % 2 = 0) (h10 : bpd ≠ 10) :
    ∀ (fuel : ℕ) (bc : ℤ) (bw : ℝ),
      widthLoop base bpd f0 fbw low high fuel bc bw
        = widthLoop base bpd f0' fbw low high fuel bc bw := by
  intro fuel
  induction fuel with
  | zero => intro bc bw; rfl
  | succ n ih =>
    intro bc bw
    rw [widthLoop_succ, widthLoop_succ]
    by_cases hc : bw < fbw
    · rw [if_pos hc, if_pos hc, gcf_f0_indep base bpd (bc + 1) f0 f0' heven h10, ih]
    · rw [if_neg hc, if_neg hc]

lemma refineLoop_f0_indep (base : ℝ) (bpd : ℕ) (f0 f0' fbw : ℝ)
    (heven : bpd % 2 = 0) (h10 : bpd ≠ 10) :
    ∀ (fuel : ℕ) (bc lbc : ℤ) (c dc : ℝ),
      refineLoop base bpd f0 fbw fuel bc lbc c dc
        = refineLoop base bpd f0' fbw fuel bc lbc c dc := by
  intro fuel
  induction fuel with
  | zero => intro bc lbc c dc; rfl
  | succ n ih =>
    intro bc lbc c dc
    rw [refineLoop_succ, refineLoop_succ]
    by_cases hc : |(lbc : ℝ) * fbw - c| < dc
    · rw [if_pos hc, if_pos hc, gcf_f0_indep base bpd (bc + 1) f0 f0' heven h10, ih]
    · rw [if_neg hc, if_neg hc]

lemma logLoop_f0_indep (base : ℝ) (bpd : ℕ) (f0 f0' b2 low high : ℝ)
    (heven : bpd % 2 = 0) (h10 : bpd ≠ 10) :
    ∀ (fuel : ℕ) (bc : ℤ) (ls : ℝ),
      logLoop base bpd f0 b2 low high fuel bc ls
        = logLoop base bpd f0' b2 low high fuel bc ls := by
  intro fuel
  induction fuel with
  | zero => intro bc ls; rfl
  | succ n ih =>
    intro bc ls
    rw [logLoop_succ, logLoop_succ]
    by_cases hc : ls < b2
    · rw [if_pos hc, if_pos hc, gcf_f0_indep base bpd bc f0 f0' heven h10, ih]
    · rw [if_neg hc, if_neg hc]

lemma hybridInit_f0_indep (base : ℝ) (bpd : ℕ) (f0 f0' b2 fbw low high : ℝ)
    (fuel : ℕ) (heven : bpd % 2 = 0) (h10 : bpd ≠ 10) :
    hybridInit base bpd f0 b2 fbw low high fuel
      = hybridInit base bpd f0' b2 fbw low high fuel := by
  rw [hybridInit, hybridInit,
    widthLoop_f0_indep base bpd f0 f0' fbw low high heven h10 fuel 0 0]
  cases widthLoop base bpd f0' fbw low high fuel 0 0 with
  | none => rfl
  | some bc =>
    dsimp only
    rw [gcf_f0_indep base bpd bc f0 f0' heven h10,
      refineLoop_f0_indep base bpd f0 f0' fbw heven h10 fuel bc _ _ _]

/-- `get_bands_limits` depends on `band` only through `band[1]` whenever
`bands_per_division` is even and different from `10`. -/
lemma get_bands_limits_f0_indep (fuel : ℕ) (l1 l2 h2 : ℝ) (nfft : ℕ)
    (base : ℝ) (bpd : ℕ) (hyb : Bool) (fbc : ℝ)
    (heven : bpd % 2 = 0) (h10 : bpd ≠ 10) :
    get_bands_limits fuel (l1, h2) nfft base bpd hyb fbc
      = get_bands_limits fuel (l2, h2) nfft base bpd hyb fbc := by
  rw [get_bands_limits, get_bands_limits]
  have hbw : binWidth (l1, h2) nfft = binWidth (l2, h2) nfft := rfl
  dsimp only
  rw [hbw]
  have hinit : (if hyb then hybridInit base bpd (l1, h2).1 (l1, h2).2
        (binWidth (l2, h2) nfft) (lowMult base bpd) (highMult base bpd) fuel
      else some (0, 0, 0))
      = (if hyb then hybridInit base bpd (l2, h2).1 (l2, h2).2
        (binWidth (l2, h2) nfft) (lowMult base bpd) (highMult base bpd) fuel
      else some (0, 0, 0)) := by
    cases hyb with
    | false => rfl
    | true =>
      simp only [if_pos]
      exact hybridInit_f0_indep base bpd l1 l2 h2 _ _ _ fuel heven h10
  rw [hinit]
  cases (if hyb then hybridInit base bpd (l2, h2).1 (l2, h2).2
      (binWidth (l2, h2) nfft) (lowMult base bpd) (highMult base bpd) fuel
    else some (0, 0, 0)) with
  | none => rfl
  | some t =>
    obtain ⟨bc, c, linCount⟩ := t
    dsimp only
    rw [logLoop_f0_indep base bpd (l1, h2).1 (l2, h2).1 h2 _ _ heven h10 fuel bc]


/-! ## Structure of hybrid geometries -/

lemma rangeMapGetD (f : ℕ → ℝ) (n i : ℕ) (h : i < n) :
    ((List.range n).map f).getD i 0 = f i := by
  rw [List.getD_eq_getElem?_getD, List.getElem?_map, List.getElem?_range h]
  rfl

/-- Structure of any returned hybrid geometry: linear centres sit on the
FFT bin grid, consecutive linear edges are one bin apart (except at the
junction), and consecutive log-region centres are in the fixed ratio
`centerRatio base bpd`. -/
lemma get_bands_limits_hybrid_structure (fuel : ℕ) (band : ℝ × ℝ) (nfft : ℕ)
    (base : ℝ) (bpd : ℕ) (fbc : ℝ) (L C : List ℝ)
    (hbase : 0 < base) (hbpd : 1 ≤ bpd)
    (h : get_bands_limits fuel band nfft base bpd true fbc = some (L, C)) :
    ∃ nLin : ℕ,
      (∀ i < nLin, C.getD i 0 = fbc + (i : ℝ) * binWidth band nfft)
      ∧ (∀ i, i + 1 < nLin →
          L.getD (i + 1) 0 - L.getD i 0 = binWidth band nfft)
      ∧ (∀ i, nLin ≤ i → i + 1 < C.length →
          C.getD (i + 1) 0 = C.getD i 0 * centerRatio base bpd) := by
  obtain ⟨bc, c, linCount, logLims, logCs, lsf, -, hlog, hL, hC⟩ :=
    get_bands_limits_decomp fuel band nfft base bpd true fbc L C h
  obtain ⟨hshape, -, -, -, -⟩ := logLoop_spec base bpd band.1 band.2
    (lowMult base bpd) (highMult base bpd) fuel bc _ _ _ _ hlog
  subst hL hC
  refine ⟨linCount, ?_, ?_, ?_⟩
  · intro i hi
    rw [List.getD_append _ _ _ _ (by simpa [linCenters] using hi), linCenters,
      rangeMapGetD _ _ _ hi]
  · intro i hi
    have h1 : i < linCount := by omega
    have hlen : ∀ j, j < linCount → (linLims linCount fbc (binWidth band nfft)
        ++ logLims ++ [lsf]).getD j 0
        = fbc + (j : ℝ) * binWidth band nfft - binWidth band nfft / 2 := by
      intro j hj
      rw [List.append_assoc,
        List.getD_append _ _ _ _ (by simpa [linLims] using hj), linLims,
        rangeMapGetD _ _ _ hj]
    rw [hlen _ hi, hlen _ h1]
    push_cast
    ring
  · intro i hli hilen
    have hclen : (linCenters linCount fbc (binWidth band nfft)).length = linCount := by
      simp [linCenters]
    have hlogl : i + 1 - linCount < logCs.length := by
      simp only [List.length_append, hclen] at hilen
      omega
    have hlogl0 : i - linCount < logCs.length := by omega
    have e1 : (linCenters linCount fbc (binWidth band nfft) ++ logCs).getD (i + 1) 0
        = logCs.getD (i + 1 - linCount) 0 := by
      rw [List.getD_append_right _ _ _ _ (by omega : (linCenters linCount fbc
        (binWidth band nfft)).length ≤ i + 1), hclen]
    have e2 : (linCenters linCount fbc (binWidth band nfft) ++ logCs).getD i 0
        = logCs.getD (i - linCount) 0 := by
      rw [List.getD_append_right _ _ _ _ (by omega : (linCenters linCount fbc
        (binWidth band nfft)).length ≤ i), hclen]
    rw [e1, e2]
    have hj1 : i + 1 - linCount = (i - linCount) + 1 := by omega
    rw [hj1, hshape, rangeMapGetD _ _ _ (by omega), rangeMapGetD _ _ _ hlogl0]
    have hcast : (bc + (((i - linCount) + 1 : ℕ) : ℤ)) = (bc + ((i - linCount : ℕ) : ℤ)) + 1 := by
      push_cast
      ring
    rw [hcast, gcf_succ base bpd _ band.1 hbase hbpd]


/-- With a non-positive upper bound (an invalid range), the non-hybrid
computation still returns a (degenerate) geometry `([0], [])` for any
fuel — there is no validation or error path in the source. -/
lemma get_bands_limits_no_validation (fuel : ℕ) (b1 b2 : ℝ) (nfft : ℕ)
    (base : ℝ) (bpd : ℕ) (fbc : ℝ) (hb2 : b2 ≤ 0) :
    get_bands_limits (fuel + 1) (b1, b2) nfft base bpd false fbc
      = some ([0], []) := by
  rw [get_bands_limits]
  dsimp only
  rw [if_neg (by simp : ¬ (false = true))]
  dsimp only
  rw [show (0 : ℝ) * highMult base bpd = 0 from zero_mul _,
    logLoop_exit base bpd b1 b2 (lowMult base bpd) (highMult base bpd) fuel 0 0 hb2]
  simp [linLims, linCenters]


/-! ## Summation identities for the rebander -/

lemma listSumEqSumGetD (l : List ℚ) :
    l.sum = ∑ k ∈ Finset.range l.length, l.getD k 0 := by
  induction l with
  | nil => simp
  | cons a t ih =>
    rw [List.sum_cons, List.length_cons, Finset.sum_range_succ', ih]
    simp
    ring

lemma listRangeMapSum (f : ℕ → ℚ) (n : ℕ) :
    ((List.range n).map f).sum = ∑ i ∈ Finset.range n, f i := by
  induction n with
  | zero => simp
  | succ m ih => rw [List.range_succ, List.map_append, List.sum_append,
      Finset.sum_range_succ, ih]; simp

lemma rangeMapGetDQ (f : ℕ → ℚ) (n i : ℕ) (h : i < n) :
    ((List.range n).map f).getD i 0 = f i := by
  rw [List.getD_eq_getElem?_getD, List.getElem?_map, List.getElem?_range h]
  rfl

lemma indicatorSplit (x v a b c : ℚ) (hab : a ≤ b) (hbc : b ≤ c) :
    (if a < x ∧ x ≤ b then v else 0) + (if b < x ∧ x ≤ c then v else 0)
      = if a < x ∧ x ≤ c then v else 0 := by
  by_cases h1 : a < x
  · by_cases h2 : x ≤ b
    · rw [if_pos ⟨h1, h2⟩, if_neg (by rintro ⟨hb, -⟩; linarith),
        if_pos ⟨h1, by linarith⟩]
      ring
    · push_neg at h2
      by_cases h3 : x ≤ c
      · rw [if_neg (by rintro ⟨-, hx⟩; linarith), if_pos ⟨h2, h3⟩, if_pos ⟨h1, h3⟩]
        ring
      · push_neg at h3
        rw [if_neg (by rintro ⟨-, hx⟩; linarith), if_neg (by rintro ⟨-, hx⟩; linarith),
          if_neg (by rintro ⟨-, hx⟩; linarith)]
        ring
  · push_neg at h1
    rw [if_neg (by rintro ⟨ha, -⟩; linarith), if_neg (by rintro ⟨hb, -⟩; linarith),
      if_neg (by rintro ⟨ha, -⟩; linarith)]
    ring

lemma groupSum_self (psd : List ℚ) (w a : ℚ) : groupSum psd w a a = 0 := by
  rw [groupSum]
  refine Finset.sum_eq_zero ?_
  intro k _
  rw [if_neg]
  rintro ⟨h1, h2⟩
  linarith

lemma groupSum_split (psd : List ℚ) (w a b c : ℚ) (hab : a ≤ b) (hbc : b ≤ c) :
    groupSum psd w a b + groupSum psd w b c = groupSum psd w a c := by
  rw [groupSum, groupSum, groupSum, ← Finset.sum_add_distrib]
  refine Finset.sum_congr rfl ?_
  intro k _
  exact indicatorSplit _ _ _ _ _ hab hbc

lemma chainLeGetLastD (b : ℚ) (l : List ℚ) (h : List.Chain' (· < ·) (b :: l)) :
    b ≤ l.getLastD b := by
  induction l generalizing b with
  | nil => simp
  | cons c t ih =>
    rw [List.chain'_cons] at h
    have := ih c h.2
    rw [List.getLastD_cons]
    calc b ≤ c := le_of_lt h.1
      _ ≤ t.getLastD c := this

lemma groupSum_chain (psd : List ℚ) (w : ℚ) (a : ℚ) (l : List ℚ)
    (h : List.Chain' (· < ·) (a :: l)) :
    (∑ i ∈ Finset.range l.length,
        groupSum psd w ((a :: l).getD i 0) ((a :: l).getD (i + 1) 0))
      = groupSum psd w a (l.getLastD a) := by
  induction l generalizing a with
  | nil => simp [groupSum_self]
  | cons b t ih =>
    rw [List.length_cons, Finset.sum_range_succ']
    have hshift : ∀ i : ℕ, (a :: b :: t).getD (i + 1) 0 = (b :: t).getD i 0 := by
      intro i
      rfl
    rw [List.chain'_cons] at h
    calc (∑ i ∈ Finset.range t.length,
            groupSum psd w ((a :: b :: t).getD (i + 1) 0) ((a :: b :: t).getD (i + 1 + 1) 0))
          + groupSum psd w ((a :: b :: t).getD 0 0) ((a :: b :: t).getD 1 0)
        = (∑ i ∈ Finset.range t.length,
            groupSum psd w ((b :: t).getD i 0) ((b :: t).getD (i + 1) 0))
          + groupSum psd w a b := by
          refine congrArg₂ _ (Finset.sum_congr rfl fun i _ => ?_) rfl
          rw [hshift i, hshift (i + 1)]
      _ = groupSum psd w b (t.getLastD b) + groupSum psd w a b := by
          rw [ih b h.2]
      _ = groupSum psd w a ((b :: t).getLastD a) := by
          rw [List.getLastD_cons, add_comm]
          exact groupSum_split psd w a b (t.getLastD b) (le_of_lt h.1)
            (chainLeGetLastD b t h.2)

lemma psdDiffList_ok (psd : List ℚ) (w : ℚ) :
    ∀ (Ls vs : List ℚ), psdDiffList psd w Ls = Except.ok vs →
      vs.length = Ls.length
      ∧ ∀ i < Ls.length, psdDiffAt psd w (Ls.getD i 0) = Except.ok (vs.getD i 0) := by
  intro Ls
  induction Ls with
  | nil =>
    intro vs h
    rw [psdDiffList] at h
    simp only [Except.ok.injEq] at h
    subst h
    exact ⟨rfl, by intro i hi; simp at hi⟩
  | cons L rest ih =>
    intro vs h
    rw [psdDiffList] at h
    cases hat : psdDiffAt psd w L with
    | error e => rw [hat] at h; simp at h
    | ok v =>
      rw [hat] at h
      cases hrest : psdDiffList psd w rest with
      | error e => rw [hrest] at h; simp at h
      | ok vs' =>
        rw [hrest] at h
        simp only [Except.ok.injEq] at h
        subst h
        obtain ⟨hlen, hall⟩ := ih vs' hrest
        refine ⟨by simp [hlen], ?_⟩
        intro i hi
        cases i with
        | zero => simpa using hat
        | succ j =>
          have : j < rest.length := by simpa using hi
          simpa using hall j this

/-- Exact total over the banded output: the grouped sums telescope, so the
output total equals the covered input total minus the boundary
corrections at the first and at the second-to-last band limit. -/
theorem psd_ds_to_bands_sum_identity (psd L C : List ℚ) (w : ℚ) (out pd : List ℚ)
    (hpd : psdDiffList psd w L.dropLast = Except.ok pd)
    (hok : psd_ds_to_bands psd L C w "spectrum" = Except.ok out)
    (hchain : List.Chain' (· < ·) L)
    (hlen : 2 ≤ L.length)
    (hcov : ∀ k < psd.length,
      L.getD 0 0 < (k : ℚ) * w ∧ (k : ℚ) * w ≤ L.getLastD 0) :
    out.sum = psd.sum - (pd.getD (L.length - 2) 0 - pd.getD 0 0) := by
  obtain ⟨a, L', rfl⟩ : ∃ a L', L = a :: L' := by
    cases L with
    | nil => simp at hlen
    | cons a L' => exact ⟨a, L', rfl⟩
  obtain ⟨b, T, rfl⟩ : ∃ b T, L' = b :: T := by
    cases L' with
    | nil => simp at hlen
    | cons b T => exact ⟨b, T, rfl⟩
  simp only [psd_ds_to_bands] at hok
  rw [hpd] at hok
  dsimp only at hok
  rw [if_neg (show ¬ ("spectrum" = "density") by simp)] at hok
  simp only [Except.ok.injEq] at hok
  subst hok
  have hm : (a :: b :: T).length - 1 = T.length + 1 := by simp
  have hm2 : (a :: b :: T).length - 2 = T.length := by simp
  rw [hm, hm2, listRangeMapSum]
  have hgrp : ∀ i, i < T.length + 1 →
      ((List.range (T.length + 1)).map (fun i =>
        groupSum psd w ((a :: b :: T).getD i 0) ((a :: b :: T).getD (i + 1) 0))).getD i 0
      = groupSum psd w ((a :: b :: T).getD i 0) ((a :: b :: T).getD (i + 1) 0) := by
    intro i hi
    rw [rangeMapGetDQ _ _ _ hi]
  rw [Finset.sum_range_succ']
  have hstep : (∑ i ∈ Finset.range T.length,
      (if i + 1 = 0 then
        ((List.range (T.length + 1)).map (fun i =>
          groupSum psd w ((a :: b :: T).getD i 0) ((a :: b :: T).getD (i + 1) 0))).getD 0 0
      else
        ((List.range (T.length + 1)).map (fun i =>
          groupSum psd w ((a :: b :: T).getD i 0) ((a :: b :: T).getD (i + 1) 0))).getD (i + 1) 0
          - (pd.getD (i + 1) 0 - pd.getD (i + 1 - 1) 0)))
      = (∑ i ∈ Finset.range T.length,
          groupSum psd w ((a :: b :: T).getD (i + 1) 0) ((a :: b :: T).getD (i + 1 + 1) 0))
        - (pd.getD T.length 0 - pd.getD 0 0) := by
    rw [← Finset.sum_range_sub (fun i => pd.getD i 0) T.length, ← Finset.sum_sub_distrib]
    refine Finset.sum_congr rfl fun i hi => ?_
    rw [if_neg (Nat.succ_ne_zero i), hgrp (i + 1) (by simpa using hi)]
    simp
  rw [hstep, if_pos rfl, hgrp 0 (Nat.succ_pos _)]
  have hchainSum := groupSum_chain psd w a (b :: T) hchain
  rw [List.length_cons] at hchainSum
  have hrearrange : (∑ i ∈ Finset.range T.length,
        groupSum psd w ((a :: b :: T).getD (i + 1) 0) ((a :: b :: T).getD (i + 1 + 1) 0))
      - (pd.getD T.length 0 - pd.getD 0 0)
      + groupSum psd w ((a :: b :: T).getD 0 0) ((a :: b :: T).getD (0 + 1) 0)
      = (∑ i ∈ Finset.range (T.length + 1),
          groupSum psd w ((a :: b :: T).getD i 0) ((a :: b :: T).getD (i + 1) 0))
        - (pd.getD T.length 0 - pd.getD 0 0) := by
    rw [Finset.sum_range_succ']
    ring
  rw [hrearrange, hchainSum]
  have hfull : groupSum psd w a ((b :: T).getLastD a) = psd.sum := by
    rw [groupSum, listSumEqSumGetD psd]
    refine Finset.sum_congr rfl fun k hk => ?_
    rw [if_pos]
    have := hcov k (Finset.mem_range.mp hk)
    rw [List.getLastD_cons] at this
    exact this
  rw [hfull]


/-! ## SPD estimator lemmas -/

lemma cumSum_zeros (l : List ℚ) (hz : ∀ x ∈ l, x = 0) :
    ∀ y ∈ cumSum l, y = 0 := by
  induction l with
  | nil => intro y hy; simp [cumSum] at hy
  | cons a t ih =>
    intro y hy
    rw [cumSum] at hy
    have ha : a = 0 := hz a (List.mem_cons_self a t)
    rcases List.mem_cons.mp hy with h | h
    · rw [h, ha]
    · obtain ⟨z, hz', hyz⟩ := List.mem_map.mp h
      rw [← hyz, ha, ih (fun x hx => hz x (List.mem_cons_of_mem a hx)) z hz', add_zero]

lemma cumSum_getLastD_zero (l : List ℚ) (hz : ∀ x ∈ l, x = 0) :
    (cumSum l).getLastD 0 = 0 := by
  cases hc : cumSum l with
  | nil => rfl
  | cons y t =>
    rw [List.getLastD_cons]
    have hmem : t.getLastD y ∈ y :: t := List.getLastD_mem_cons t y
    rw [← hc] at hmem
    exact cumSum_zeros l hz _ hmem

lemma findIdx_eq_length_of_none (l : List Bool) (h : ∀ x ∈ l, x = false) :
    l.findIdx (fun b => b) = l.length := by
  induction l with
  | nil => rfl
  | cons a t ih =>
    rw [List.findIdx_cons]
    have ha : a = false := h a (List.mem_cons_self a t)
    rw [ha]
    simp only [cond_false, List.length_cons]
    rw [ih (fun x hx => h x (List.mem_cons_of_mem a hx))]

lemma argmaxBool_all_false (l : List Bool) (h : ∀ x ∈ l, x = false) :
    argmaxBool l = 0 := by
  rw [argmaxBool, if_pos (findIdx_eq_length_of_none l h)]

/-- A degenerate spd row (all histogram counts outside the bins) makes
every percentile lookup return the FIRST bin edge: the cumulative sum is
identically zero, the comparison vector is all `False`, and `np.argmax`
of an all-`False` vector is `0`. -/
lemma pRow_degenerate (percentiles edges srow : List ℚ)
    (hz : ∀ x ∈ srow, x = 0) :
    pRow percentiles edges srow = percentiles.map (fun _ => edges.getD 0 0) := by
  rw [pRow]
  refine List.map_congr_left fun pc _ => ?_
  have hfalse : ∀ x ∈ (cumSum srow).map
      (fun x => decide (pc * (cumSum srow).getLastD 0 < x)), x = false := by
    intro x hx
    obtain ⟨z, hzmem, hxz⟩ := List.mem_map.mp hx
    rw [← hxz, cumSum_getLastD_zero srow hz, cumSum_zeros srow hz z hzmem]
    simp
  rw [argmaxBool_all_false _ hfalse]

lemma spdRow_degenerate (nRows : ℕ) (h : ℚ) (edges row : List ℚ)
    (hz : ∀ c ∈ histCounts row edges, c = 0) :
    ∀ x ∈ spdRow nRows h edges row, x = 0 := by
  intro x hx
  rw [spdRow] at hx
  obtain ⟨c, hc, hxc⟩ := List.mem_map.mp hx
  have hc0 : c = 0 := hz c hc
  rw [← hxc, hc0]
  simp

lemma mapGetDRow (f : List ℚ → List ℚ) (l : List (List ℚ)) (i : ℕ)
    (h : i < l.length) : (l.map f).getD i [] = f (l.getD i []) := by
  rw [List.getD_eq_getElem?_getD, List.getElem?_map, List.getElem?_eq_getElem h]
  simp [List.getD_eq_getElem?_getD, List.getElem?_eq_getElem h]


/-! ## Claim theorems -/

lemma mapGetDNat (f : ℕ → ℚ) (l : List ℕ) (j : ℕ) (h : j < l.length) :
    (l.map f).getD j 0 = f (l.getD j 0) := by
  rw [List.getD_eq_getElem?_getD, List.getElem?_map, List.getElem?_eq_getElem h]
  simp [List.getD_eq_getElem?_getD, List.getElem?_eq_getElem h]

/-- C9 (confirmed): the band filter design `octdsgn` raises its domain
error exactly when `center_freq > 0.88 * sample_rate / 2`; in particular
it raises at `0.9 * fs / 2` and returns the filter-design parameters
(handed to `scipy.signal.butter`) without error at `0.1 * fs / 2`. -/
theorem claim_C9_realizability (fs : ℝ) (fraction n : ℕ) (hfs : 0 < fs) :
    (∀ fc : ℝ, (∃ e, octdsgn fc fs fraction n = Except.error e) ↔ fc > 0.88 * fs / 2)
    ∧ (∃ e, octdsgn (0.9 * fs / 2) fs fraction n = Except.error e)
    ∧ (∃ v, octdsgn (0.1 * fs / 2) fs fraction n = Except.ok v) := by
  have hmain : ∀ fc : ℝ, (∃ e, octdsgn fc fs fraction n = Except.error e)
      ↔ fc > 0.88 * fs / 2 := by
    intro fc
    constructor
    · rintro ⟨e, he⟩
      by_contra hnot
      rw [octdsgn, if_neg hnot] at he
      simp at he
    · intro hgt
      rw [octdsgn, if_pos hgt]
      exact ⟨_, rfl⟩
  refine ⟨hmain, ?_, ?_⟩
  · exact (hmain _).mpr (by nlinarith)
  · rw [octdsgn, if_neg (by nlinarith)]
    exact ⟨_, rfl⟩

/-- Witness for C9 at `fs = 100` (so the two special inputs are `45` and
`5`). -/
theorem claim_C9_realizability_witness :
    (0 : ℝ) < 100
    ∧ ((∀ fc : ℝ, (∃ e, octdsgn fc 100 1 2 = Except.error e) ↔ fc > 0.88 * 100 / 2)
      ∧ (∃ e, octdsgn (0.9 * 100 / 2) 100 1 2 = Except.error e)
      ∧ (∃ v, octdsgn (0.1 * 100 / 2) 100 1 2 = Except.ok v)) :=
  ⟨by norm_num, claim_C9_realizability 100 1 2 (by norm_num)⟩

/-- C10 (confirmed): `get_hybrid_millidecade_limits` ignores the lower
band bound: two band ranges sharing the same upper bound give identical
geometries, because with `bands_per_division = 1000` (even and not `10`)
`get_center_freq` never reads its `firstOutBandcenterFreq` argument. -/
theorem claim_C10_lower_bound_ignored (fuel : ℕ) (l1 l2 h : ℝ) (nfft : ℕ) :
    get_hybrid_millidecade_limits fuel (l1, h) nfft
      = get_hybrid_millidecade_limits fuel (l2, h) nfft := by
  rw [get_hybrid_millidecade_limits, get_hybrid_millidecade_limits]
  exact get_bands_limits_f0_indep fuel l1 l2 h nfft 10 1000 true 0
    (by norm_num) (by norm_num)

/-- C2 (code_bug): requesting `method='density'` raises a `TypeError`
(`psd.frequency.diff()` is called without the required `dim` argument)
instead of returning the spectrum output divided by band bandwidths. -/
theorem claim_C2_density_crash :
    psd_ds_to_bands [1, 1, 1] [-(1 : ℚ)/2, 3/2, 5/2] [0, 2] 1 "density"
      = Except.error densityErrorMsg := by
  simp only [psd_ds_to_bands, psdDiffList, psdDiffAt, psdLimitAt,
    freqSel, fftFreqLim, weightDiff,
    List.dropLast, List.length_cons, List.length_nil,
    show List.range 3 = [0, 1, 2] from rfl,
    List.find?, List.map_cons, List.map_nil]
  norm_num [List.getD]

/-- C1 (counterexample): a spectrum concentrated in the FFT bin that
straddles the second-to-last band limit loses a constant fraction of its
energy: with `w = 1`, limits `[-1/2, 6/5, 9/2]` and a unit spike at bin
`2`, the banded total is `7/10` against an input total of `1` — far
beyond the claimed `1e-5` relative tolerance. -/
theorem claim_C1_counterexample :
    psd_ds_to_bands [0, 0, 1, 0, 0] [-(1 : ℚ)/2, 6/5, 9/2] [1/2, 2] 1 "spectrum"
      = Except.ok [0, 7/10]
    ∧ ¬ (|([0, 7/10] : List ℚ).sum - ([0, 0, 1, 0, 0] : List ℚ).sum|
          ≤ 1/100000 * ([0, 0, 1, 0, 0] : List ℚ).sum) := by
  constructor
  · simp only [psd_ds_to_bands, psdDiffList, psdDiffAt, psdLimitAt,
      freqSel, fftFreqLim, weightDiff, groupSum,
      List.dropLast, List.length_cons, List.length_nil,
      show List.range 2 = [0, 1] from rfl, show List.range 5 = [0, 1, 2, 3, 4] from rfl,
      List.find?, List.map_cons, List.map_nil, Finset.sum_range_succ, Finset.sum_range_zero,
      show ("spectrum" = "density") = False by simp]
    norm_num [List.getD]
  · norm_num
    rw [abs_of_pos (show (0 : ℚ) < 3/10 by norm_num)]
    norm_num

/-- C1 (amended): the sum of the banded spectrum output equals the input
total minus the boundary corrections at the first and the second-to-last
band limit; energy is conserved exactly when those corrections vanish
(e.g. first limit on a bin midpoint and zero power in the bin above the
second-to-last limit), not for every spectrum and geometry. -/
theorem claim_C1_amended (psd L C : List ℚ) (w : ℚ) (out pd : List ℚ)
    (hpd : psdDiffList psd w L.dropLast = Except.ok pd)
    (hok : psd_ds_to_bands psd L C w "spectrum" = Except.ok out)
    (hchain : List.Chain' (· < ·) L)
    (hlen : 2 ≤ L.length)
    (hcov : ∀ k < psd.length,
      L.getD 0 0 < (k : ℚ) * w ∧ (k : ℚ) * w ≤ L.getLastD 0) :
    out.sum = psd.sum - (pd.getD (L.length - 2) 0 - pd.getD 0 0) :=
  psd_ds_to_bands_sum_identity psd L C w out pd hpd hok hchain hlen hcov

/-- Witness for the amended C1 on a concrete covered geometry. -/
theorem claim_C1_amended_witness :
    (psdDiffList [1, 2, 3] 1 (([-(1 : ℚ)/2, 3/2, 7/2] : List ℚ).dropLast)
        = Except.ok [0, 0])
    ∧ (psd_ds_to_bands [1, 2, 3] [-(1 : ℚ)/2, 3/2, 7/2] [1/2, 2] 1 "spectrum"
        = Except.ok [3, 3])
    ∧ ([3, 3] : List ℚ).sum = ([1, 2, 3] : List ℚ).sum
        - (([0, 0] : List ℚ).getD (([-(1 : ℚ)/2, 3/2, 7/2] : List ℚ).length - 2) 0
            - ([0, 0] : List ℚ).getD 0 0) := by
  have hpd : psdDiffList [1, 2, 3] 1 (([-(1 : ℚ)/2, 3/2, 7/2] : List ℚ).dropLast)
      = Except.ok [0, 0] := by
    simp only [psdDiffList, psdDiffAt, psdLimitAt, freqSel, fftFreqLim, weightDiff,
      List.dropLast, List.length_cons, List.length_nil,
      show List.range 3 = [0, 1, 2] from rfl, List.find?]
    norm_num [List.getD]
  have hok : psd_ds_to_bands [1, 2, 3] [-(1 : ℚ)/2, 3/2, 7/2] [1/2, 2] 1 "spectrum"
      = Except.ok [3, 3] := by
    simp only [psd_ds_to_bands, psdDiffList, psdDiffAt, psdLimitAt,
      freqSel, fftFreqLim, weightDiff, groupSum,
      List.dropLast, List.length_cons, List.length_nil,
      show List.range 2 = [0, 1] from rfl, show List.range 3 = [0, 1, 2] from rfl,
      List.find?, List.map_cons, List.map_nil, Finset.sum_range_succ, Finset.sum_range_zero,
      show ("spectrum" = "density") = False by simp]
    norm_num [List.getD]
  refine ⟨hpd, hok, claim_C1_amended [1, 2, 3] _ [1/2, 2] 1 [3, 3] [0, 0] hpd hok ?_ ?_ ?_⟩
  · norm_num [List.chain'_cons]
  · norm_num
  · intro k hk
    simp only [List.length_cons, List.length_nil] at hk
    interval_cases k <;> norm_num [List.getD, List.getLastD]

/-- C3 (counterexample): in the hybrid run with `band = (2, 1000)`,
`nfft = 2000` (one-Hz bins), `base = 100`, one band per division, the
band with centre `1` belongs to the linear region (its centre is
`first_bin_centre + 1 * fft_bin_width`) yet its width is `1999.5`, not
one FFT bin: the log loop is skipped and the stale `ls_freq` becomes its
upper edge. -/
theorem claim_C3_counterexample :
    get_bands_limits 4 (2, 1000) 2000 100 1 true 0
      = some ([-(1/2 : ℝ), 1/2, 2000], [0, 1])
    ∧ binWidth (2, 1000) 2000 = 1
    ∧ ([0, (1 : ℝ)]).getD 1 0 = 0 + 1 * binWidth (2, 1000) 2000
    ∧ ¬ (([-(1/2 : ℝ), 1/2, 2000]).getD 2 0 - ([-(1/2 : ℝ), 1/2, 2000]).getD 1 0
          = binWidth (2, 1000) 2000) := by
  refine ⟨?_, ?_, ?_, ?_⟩
  · have h := trace2_sim 0
    norm_num at h
    exact h
  · norm_num [binWidth]
  · norm_num [binWidth, List.getD]
  · norm_num [binWidth, List.getD]

/-- C3 (amended): for every returned hybrid geometry (with positive base
and at least one band per division), the linear-region centres sit
exactly on the FFT bin grid, every linear band except the last is exactly
one FFT bin wide, and consecutive log-region centres are in the constant
ratio `centerRatio base bpd` — that is `base^(1/bpd)` when `bpd` is `10`
or odd, and `10^(1/bpd)` otherwise (not `base^(1/bpd)` in general). -/
theorem claim_C3_amended (fuel : ℕ) (band : ℝ × ℝ) (nfft : ℕ)
    (base : ℝ) (bpd : ℕ) (fbc : ℝ) (L C : List ℝ)
    (hbase : 0 < base) (hbpd : 1 ≤ bpd)
    (h : get_bands_limits fuel band nfft base bpd true fbc = some (L, C)) :
    ∃ nLin : ℕ,
      (∀ i < nLin, C.getD i 0 = fbc + (i : ℝ) * binWidth band nfft)
      ∧ (∀ i, i + 1 < nLin →
          L.getD (i + 1) 0 - L.getD i 0 = binWidth band nfft)
      ∧ (∀ i, nLin ≤ i → i + 1 < C.length →
          C.getD (i + 1) 0 = C.getD i 0 * centerRatio base bpd) :=
  get_bands_limits_hybrid_structure fuel band nfft base bpd fbc L C hbase hbpd h

/-- Witness for the amended C3 on the `band = (2, 1000)` hybrid run. -/
theorem claim_C3_amended_witness :
    (get_bands_limits 4 (2, 1000) 2000 100 1 true 0
      = some ([-(1/2 : ℝ), 1/2, 2000], [0, 1]))
    ∧ ∃ nLin : ℕ,
      (∀ i < nLin, ([0, (1 : ℝ)]).getD i 0 = 0 + (i : ℝ) * binWidth (2, 1000) 2000)
      ∧ (∀ i, i + 1 < nLin →
          ([-(1/2 : ℝ), 1/2, 2000]).getD (i + 1) 0
            - ([-(1/2 : ℝ), 1/2, 2000]).getD i 0 = binWidth (2, 1000) 2000)
      ∧ (∀ i, nLin ≤ i → i + 1 < ([0, (1 : ℝ)] : List ℝ).length →
          ([0, (1 : ℝ)]).getD (i + 1) 0 = ([0, (1 : ℝ)]).getD i 0 * centerRatio 100 1) := by
  have h := trace2_sim 0
  norm_num at h
  exact ⟨h, claim_C3_amended 4 (2, 1000) 2000 100 1 0 _ _ (by norm_num) (by norm_num) h⟩

/-- C4 (counterexample): a hybrid run whose returned edges are NOT
strictly increasing: with `band = (2, 4000)`, `nfft = 8000`, `base =
100`, one band per division, the first log-region edge `1/5` falls below
the last linear edge `1/2`. -/
theorem claim_C4_counterexample :
    get_bands_limits 4 (2, 4000) 8000 100 1 true 0
      = some ([-(1/2 : ℝ), 1/2, 1/5, 20, 2000, 200000], [0, 1, 2, 200, 20000])
    ∧ ¬ List.Chain' (· < ·) [-(1/2 : ℝ), 1/2, 1/5, 20, 2000, 200000] := by
  constructor
  · have h := trace1_sim 0
    norm_num at h
    exact h
  · intro hchain
    rw [List.chain'_cons, List.chain'_cons] at hchain
    obtain ⟨-, h2, -⟩ := hchain
    norm_num at h2

/-- C4 (amended): for every returned geometry the edges list has exactly
one more entry than the centres list; edges are strictly increasing in
non-hybrid mode (for `base > 1`, at least one band per division and a
positive lower band bound), but not in general in hybrid mode. -/
theorem claim_C4_amended :
    (∀ (fuel : ℕ) (band : ℝ × ℝ) (nfft : ℕ) (base : ℝ) (bpd : ℕ)
        (hyb : Bool) (fbc : ℝ) (L C : List ℝ),
      get_bands_limits fuel band nfft base bpd hyb fbc = some (L, C) →
        L.length = C.length + 1)
    ∧ (∀ (fuel : ℕ) (band : ℝ × ℝ) (nfft : ℕ) (base : ℝ) (bpd : ℕ)
        (fbc : ℝ) (L C : List ℝ),
      1 < base → 1 ≤ bpd → 0 < band.1 →
      get_bands_limits fuel band nfft base bpd false fbc = some (L, C) →
        List.Chain' (· < ·) L) :=
  ⟨fun fuel band nfft base bpd hyb fbc L C h =>
      get_bands_limits_lengths fuel band nfft base bpd hyb fbc L C h,
   fun fuel band nfft base bpd fbc L C hbase hbpd hf0 h =>
      get_bands_limits_chain_nonhybrid fuel band nfft base bpd fbc L C hbase hbpd hf0 h⟩

/-- Witness for the amended C4: length invariant on the hybrid run of the
counterexample, strict monotonicity on a non-hybrid run. -/
theorem claim_C4_amended_witness :
    ([-(1/2 : ℝ), 1/2, 1/5, 20, 2000, 200000] : List ℝ).length
        = ([0, (1 : ℝ), 2, 200, 20000] : List ℝ).length + 1
    ∧ List.Chain' (· < ·) [1/10, 10, (1000 : ℝ)] := by
  have h1 := trace1_sim 0
  norm_num at h1
  have h3 := trace3_sim 0
  norm_num at h3
  exact ⟨claim_C4_amended.1 4 (2, 4000) 8000 100 1 true 0 _ _ h1,
    claim_C4_amended.2 3 (100, 50) 10 100 1 0 _ _ (by norm_num) (by norm_num)
      (by norm_num) h3⟩

/-- C5 (counterexample): a returned geometry whose last edge exceeds the
requested upper bound `band[1] = 1000`: the final edge is `2000`. -/
theorem claim_C5_counterexample :
    get_bands_limits 4 (2, 1000) 2000 100 1 true 0
      = some ([-(1/2 : ℝ), 1/2, 2000], [0, 1])
    ∧ ¬ (∀ x ∈ ([-(1/2 : ℝ), 1/2, 2000] : List ℝ), x ≤ 1000) := by
  constructor
  · have h := trace2_sim 0
    norm_num at h
    exact h
  · intro hall
    have := hall 2000 (by simp)
    norm_num at this

/-- C5 (amended): the final edge of every returned geometry is at least
`band[1]` (the log loop exits only once `ls_freq ≥ band[1]`, and that
`ls_freq` is appended as the last limit); the edges are therefore not
bounded by `band[1]` from above. -/
theorem claim_C5_amended (fuel : ℕ) (band : ℝ × ℝ) (nfft : ℕ)
    (base : ℝ) (bpd : ℕ) (hyb : Bool) (fbc : ℝ) (L C : List ℝ)
    (h : get_bands_limits fuel band nfft base bpd hyb fbc = some (L, C)) :
    L ≠ [] ∧ band.2 ≤ L.getLastD 0 :=
  get_bands_limits_last_ge fuel band nfft base bpd hyb fbc L C h

/-- Witness for the amended C5 on the `band = (2, 1000)` run. -/
theorem claim_C5_amended_witness :
    ([-(1/2 : ℝ), 1/2, 2000] : List ℝ) ≠ []
    ∧ (1000 : ℝ) ≤ ([-(1/2 : ℝ), 1/2, 2000] : List ℝ).getLastD 0 := by
  have h := trace2_sim 0
  norm_num at h
  exact claim_C5_amended 4 (2, 1000) 2000 100 1 true 0 _ _ h

/-- C6 (counterexample): a band range with upper bound below the lower
bound (`band = (100, 50)`) is NOT rejected: `get_bands_limits` runs to
completion and returns a geometry. -/
theorem claim_C6_counterexample :
    ((50 : ℝ) ≤ 100)
    ∧ get_bands_limits 3 (100, 50) 10 100 1 false 0
        = some ([1/10, 10, (1000 : ℝ)], [1, 100]) := by
  refine ⟨by norm_num, ?_⟩
  have h := trace3_sim 0
  norm_num at h
  exact h

/-- C6 (amended): no validation of the band range is performed anywhere
in `get_bands_limits` or its wrappers — there is no error path at all.
With a non-positive upper bound (a range outside `[0, Nyquist]` with
upper ≤ lower) the call immediately returns the degenerate geometry
`([0], [])` instead of raising. -/
theorem claim_C6_amended (fuel : ℕ) (b1 b2 : ℝ) (nfft : ℕ)
    (base : ℝ) (bpd : ℕ) (fbc : ℝ) (hb2 : b2 ≤ 0) :
    get_bands_limits (fuel + 1) (b1, b2) nfft base bpd false fbc
      = some ([0], []) :=
  get_bands_limits_no_validation fuel b1 b2 nfft base bpd fbc hb2

/-- Witness for the amended C6 at `band = (100, -5)`. -/
theorem claim_C6_amended_witness :
    ((-5 : ℝ) ≤ 0)
    ∧ get_bands_limits 1 (100, -5) 8 7 3 false 0 = some ([0], []) := by
  have h := claim_C6_amended 0 100 (-5) 8 7 3 0 (by norm_num)
  norm_num at h
  exact ⟨by norm_num, h⟩

/-- C7 (counterexample): a degenerate row (its single value `5` falls
outside every amplitude bin, so the cumulative histogram total is zero)
does NOT produce not-a-number percentile outputs: every percentile lookup
returns `bin_edges[0] = 0`, a well-defined value
(`np.argmax` of the all-`False` comparison vector is index `0`). -/
theorem claim_C7_counterexample :
    (sxx2spd [[5], [1/2]] 1 [1/2] [0, 1]).2 = [[0], [0]]
    ∧ ([0, 1] : List ℚ).getD 0 0 = 0 := by
  constructor
  · simp only [sxx2spd, pRow, spdRow, histCounts, inBin, cumSum, argmaxBool,
      List.length_cons, List.length_nil,
      show List.range 1 = [0] from rfl,
      List.map_cons, List.map_nil, List.countP_cons, List.countP_nil,
      List.findIdx_cons, List.findIdx_nil, List.getLastD]
    norm_num [List.getD, inBin]
  · norm_num [List.getD, inBin]

/-- C7 (amended): for a row whose histogram counts are all zero, the call
does not fail and every percentile output of that row equals the first
bin edge `bin_edges[0]` (not NaN); and any output row depends only on the
corresponding input row and the row count, so other rows are
unaffected. -/
theorem claim_C7_amended :
    (∀ (sxx : List (List ℚ)) (h : ℚ) (pct edges : List ℚ) (i : ℕ),
      i < sxx.length →
      (∀ c ∈ histCounts (sxx.getD i []) edges, c = 0) →
      ((sxx2spd sxx h pct edges).2).getD i [] = pct.map (fun _ => edges.getD 0 0))
    ∧ (∀ (sxx sxx' : List (List ℚ)) (h : ℚ) (pct edges : List ℚ) (r : ℕ),
      sxx.length = sxx'.length → r < sxx.length →
      sxx.getD r [] = sxx'.getD r [] →
      ((sxx2spd sxx h pct edges).1).getD r [] = ((sxx2spd sxx' h pct edges).1).getD r []
      ∧ ((sxx2spd sxx h pct edges).2).getD r []
          = ((sxx2spd sxx' h pct edges).2).getD r []) := by
  constructor
  · intro sxx h pct edges i hi hz
    show (sxx.map _).getD i [] = _
    rw [mapGetDRow _ _ _ hi]
    exact pRow_degenerate pct edges _ (spdRow_degenerate sxx.length h edges _ hz)
  · intro sxx sxx' h pct edges r hlen hr hrow
    constructor
    · show (sxx.map _).getD r [] = (sxx'.map _).getD r []
      rw [mapGetDRow _ _ _ hr, mapGetDRow _ _ _ (hlen ▸ hr), hrow, hlen]
    · show (sxx.map _).getD r [] = (sxx'.map _).getD r []
      rw [mapGetDRow _ _ _ hr, mapGetDRow _ _ _ (hlen ▸ hr), hrow, hlen]

/-- Witness for the amended C7 at the degenerate input `[[5], [1/2]]`. -/
theorem claim_C7_amended_witness :
    ((0 : ℕ) < ([[5], [1/2]] : List (List ℚ)).length)
    ∧ (∀ c ∈ histCounts (([[5], [1/2]] : List (List ℚ)).getD 0 []) [0, 1], c = 0)
    ∧ ((sxx2spd [[5], [1/2]] 1 [1/2] [0, 1]).2).getD 0 []
        = ([1/2] : List ℚ).map (fun _ => ([0, 1] : List ℚ).getD 0 0)
    ∧ ((sxx2spd [[5], [1/2]] 1 [1/2] [0, 1]).1).getD 0 []
        = ((sxx2spd [[5], [1]] 1 [1/2] [0, 1]).1).getD 0 [] := by
  have he : histCounts (([[5], [1/2]] : List (List ℚ)).getD 0 []) [0, 1] = [0] := by
    simp only [List.getD, List.getElem?_cons_zero, Option.getD_some,
      histCounts, inBin, List.length_cons, List.length_nil,
      show List.range 1 = [0] from rfl,
      List.map_cons, List.map_nil, List.countP_cons, List.countP_nil]
    norm_num [List.getD, inBin]
  have hz : ∀ c ∈ histCounts (([[5], [1/2]] : List (List ℚ)).getD 0 []) [0, 1], c = 0 := by
    rw [he]
    intro c hc
    simpa using hc
  refine ⟨by norm_num, hz,
    claim_C7_amended.1 [[5], [1/2]] 1 [1/2] [0, 1] 0 (by norm_num) hz,
    (claim_C7_amended.2 [[5], [1/2]] [[5], [1]] 1 [1/2] [0, 1] 0 (by norm_num)
      (by norm_num) (by norm_num [List.getD])).1⟩

/-- C8 (counterexample): the spd normalisation uses the number of ROWS of
`sxx`, not the number of amplitude bins: for a one-row spectrogram over
three bins with `h = 1`, the code returns `[[1, 1, 0]]` while the claimed
normalisation (counts divided by bins times `h`) gives
`[[1/3, 1/3, 0]]`. -/
theorem claim_C8_counterexample :
    (sxx2spd [[1/2, 3/2]] 1 [] [0, 1, 2, 3]).1 = [[1, 1, 0]]
    ∧ spdClaimNorm [[1/2, 3/2]] 1 [0, 1, 2, 3] = [[1/3, 1/3, 0]]
    ∧ (sxx2spd [[1/2, 3/2]] 1 [] [0, 1, 2, 3]).1
        ≠ spdClaimNorm [[1/2, 3/2]] 1 [0, 1, 2, 3] := by
  have h1 : (sxx2spd [[1/2, 3/2]] 1 [] [0, 1, 2, 3]).1 = [[1, 1, 0]] := by
    simp only [sxx2spd, spdRow, histCounts, inBin,
      show List.range 3 = [0, 1, 2] from rfl,
      List.map_cons, List.map_nil, List.countP_cons, List.countP_nil,
      List.length_cons, List.length_nil]
    norm_num [List.getD, inBin]
  have h2 : spdClaimNorm [[1/2, 3/2]] 1 [0, 1, 2, 3] = [[1/3, 1/3, 0]] := by
    simp only [spdClaimNorm, histCounts, inBin,
      show List.range 3 = [0, 1, 2] from rfl,
      List.map_cons, List.map_nil, List.countP_cons, List.countP_nil,
      List.length_cons, List.length_nil]
    norm_num [List.getD, inBin]
  refine ⟨h1, h2, ?_⟩
  rw [h1, h2]
  intro hfalse
  simp only [List.cons.injEq] at hfalse
  norm_num at hfalse

/-- C8 (amended): each spd entry times `(number of rows of sxx) * h`
recovers the histogram count — the normalising constant of `sxx2spd` is
`sxx.shape[0] * h`, not `(number of bins) * h`. -/
theorem claim_C8_amended (sxx : List (List ℚ)) (h : ℚ) (pct edges : List ℚ)
    (i j : ℕ) (hi : i < sxx.length) (hh : h ≠ 0) :
    ((sxx2spd sxx h pct edges).1.getD i []).getD j 0 * ((sxx.length : ℚ) * h)
      = ((histCounts (sxx.getD i []) edges).getD j 0 : ℚ) := by
  show ((sxx.map _).getD i []).getD j 0 * _ = _
  rw [mapGetDRow _ _ _ hi]
  by_cases hj : j < (histCounts (sxx.getD i []) edges).length
  · rw [spdRow, mapGetDNat _ _ _ hj]
    have h0 : 0 < sxx.length := Nat.lt_of_le_of_lt (Nat.zero_le i) hi
    have hn : ((sxx.length : ℚ) * h) ≠ 0 :=
      mul_ne_zero (by exact_mod_cast h0.ne') hh
    exact div_mul_cancel₀ _ hn
  · push_neg at hj
    rw [spdRow, List.getD_eq_default _ _ (by simpa using hj),
      List.getD_eq_default _ _ hj]
    simp

/-- Witness for the amended C8 at a one-row three-bin input. -/
theorem claim_C8_amended_witness :
    ((0 : ℕ) < ([[1/2, 3/2]] : List (List ℚ)).length) ∧ ((1 : ℚ) ≠ 0)
    ∧ ((sxx2spd [[1/2, 3/2]] 1 [] [0, 1, 2, 3]).1.getD 0 []).getD 0 0
        * ((([[1/2, 3/2]] : List (List ℚ)).length : ℚ) * 1)
      = ((histCounts (([[1/2, 3/2]] : List (List ℚ)).getD 0 []) [0, 1, 2, 3]).getD 0 0 : ℚ) :=
  ⟨by norm_num, by norm_num,
    claim_C8_amended [[1/2, 3/2]] 1 [] [0, 1, 2, 3] 0 0 (by norm_num) (by norm_num)⟩

end Pypam
